import Mathlib

/-!
Verification of the rust_cdn write-through file store and its HTTP router.

The development shallowly embeds src/main.rs:
* `File`, `Store` model the in-memory HashMap from filename to `File`
  (keys are always the record name, as in the source).
* `Data`, `DirListing`, `Disk` model the persisted files: raw file data
  with `Data.decode` for String::from_utf8(bytes).ok(), which yields no
  content for bytes that are not valid text; a directory listing for the
  startup scan; and the file system for writes.
* `init_store`, `upload`, `download`, `all`, `response_handler` are
  transliterated from the source functions of the same names; a boolean
  write-outcome parameter models whether std::fs::write succeeds, and
  the handler result `none` models a Rust panic (index out of bounds).
* `splitSlash`, `fileName?`, `pathJoin` model str::split, Path::file_name
  and Path::join as used by the source.
* The persistence layer `Disk` is keyed by the resolved physical path of
  a file (its normalized segment path relative to the process
  directory), because std::fs::write resolves dot and dot-dot segments
  of the raw upload target ./store/<name>: distinct raw names can alias
  one physical file, and a traversal name can land outside the storage
  directory.
-/

namespace Cdn

/-- A stored record, as in the source struct File: a name and optional
text content (content is absent for startup-scanned files whose bytes do
not decode as text). -/
structure File where
  name : String
  content : Option String
deriving DecidableEq

/-- The in-memory map of the FileStore, modelled as an association list
keyed by the record name (the source always inserts under file.name). -/
abbrev Store := List File

/-- HashMap::get on the store. -/
def Store.get? : Store → String → Option File
  | [], _ => none
  | f :: fs, n => if f.name = n then some f else Store.get? fs n

/-- HashMap::insert on the store: replace the entry with the same name,
or add the record when absent. -/
def Store.insert : Store → File → Store
  | [], f => [f]
  | g :: gs, f => if g.name = f.name then f :: gs else g :: Store.insert gs f

/-- Raw bytes of a file on disk: either bytes that decode as the text s
(as written by uploads), or bytes that are not valid text. -/
inductive Data where
  | text (s : String)
  | binary (b : List Nat)
deriving DecidableEq

/-- String::from_utf8(bytes).ok(): the decoded text, when the bytes are
valid text. -/
def Data.decode : Data → Option String
  | .text s => some s
  | .binary _ => none

/-- The listing std::fs::read_dir produces for the storage directory:
one entry per regular file, its leaf name paired with its raw data. -/
abbrev DirListing := List (String × Data)

/-- init_store from the source: scan every file of the store directory
and insert a record whose content is the decoded text of its bytes. -/
def init_store (d : DirListing) : Store :=
  d.foldl (fun s p => Store.insert s (File.mk p.1 (Data.decode p.2))) []

example : Store.get? (Store.insert [] (File.mk "a" (some "x"))) "a"
    = some (File.mk "a" (some "x")) := by decide

example : init_store [("blob", Data.binary [255])] = [File.mk "blob" none] := by decide

/-! ## Path handling -/

/-- str::split on the slash character, on the character list of a path:
"a//b" gives the pieces a, empty, b. -/
def splitSlash : List Char → List (List Char)
  | [] => [[]]
  | c :: cs =>
    if c = '/' then [] :: splitSlash cs
    else
      match splitSlash cs with
      | s :: rest => (c :: s) :: rest
      | [] => [[c]]

/-- The segment list the handler computes from the request path:
split on slashes and keep the non-empty pieces (source lines 76 to 81). -/
def pathSegs (p : String) : List String :=
  ((splitSlash p.toList).filter (fun s => !s.isEmpty)).map (fun s => String.mk s)

example : pathSegs "/file/../../etc/passwd" = ["file", "..", "..", "etc", "passwd"] := by decide
example : pathSegs "/" = [] := by decide
example : pathSegs "/file/" = ["file"] := by decide

/-- Path::file_name: the last path component that is a normal name;
none when the path is empty or ends in a parent-directory or
current-directory component. -/
def fileName? (p : String) : Option String :=
  match ((splitSlash p.toList).filter (fun s => !s.isEmpty && s != ['.'])).getLast? with
  | none => none
  | some s => if s = ['.', '.'] then none else some (String.mk s)

/-- The anti-path-traversal step of download (source lines 144 to 147):
replace the name by Path::file_name when that yields one, otherwise keep
the name. -/
def sanitizeName (n : String) : String := (fileName? n).getD n

example : fileName? "../../etc/passwd" = some "passwd" := by decide
example : fileName? ".." = none := by decide
example : sanitizeName ".." = ".." := by decide

/-- Path::join: an absolute right operand replaces the path, otherwise
it is appended after a slash. -/
def pathJoin (base p : String) : String :=
  if p.toList.head? = some '/' then p else base ++ "/" ++ p

/-- The path upload writes to (source lines 120 to 123):
Path::new(".").join("store").join(filename) with the raw client name. -/
def uploadPath (name : String) : String := pathJoin (pathJoin "." "store") name

/-- Resolve current-directory and parent-directory segments, to state
where a path lands relative to the process directory. -/
def normalizeSegs (segs : List String) : List String :=
  segs.foldl
    (fun acc s => if s = "." then acc else if s = ".." then acc.dropLast else acc ++ [s]) []

example : normalizeSegs (pathSegs (uploadPath "../evil")) = ["evil"] := by decide
example : normalizeSegs (pathSegs (uploadPath "a.txt")) = ["store", "a.txt"] := by decide

/-! ## The persistence layer -/

/-- The file system, one entry per physical file, keyed by its resolved
path: the normalized segment path relative to the process directory.
Resolved keys are what fs path resolution identifies files by, so two
raw upload names whose targets resolve alike address one entry here. -/
abbrev Disk := List (List String × Data)

/-- Read the data of the physical file at a resolved path. -/
def Disk.lookup : Disk → List String → Option Data
  | [], _ => none
  | (m, dat) :: ds, n => if m = n then some dat else Disk.lookup ds n

/-- std::fs::write at a resolved path: create or overwrite the physical
file there with the text content. -/
def Disk.write : Disk → List String → String → Disk
  | [], n, c => [(n, .text c)]
  | (m, dat) :: ds, n, c =>
      if m = n then (n, .text c) :: ds else (m, dat) :: Disk.write ds n c

/-- The physical location the operating system resolves the upload
target of a raw client name, Path::new(".").join("store").join(name),
to. -/
def resolveUpload (name : String) : List String :=
  normalizeSegs (pathSegs (uploadPath name))

example : resolveUpload "a" = ["store", "a"] := by decide
example : resolveUpload "../store/a" = resolveUpload "a" := by decide
example : resolveUpload "../evil" = ["evil"] := by decide

/-- A file system whose storage directory holds exactly the files of a
directory listing. -/
def storeDir (d0 : DirListing) : Disk :=
  d0.map (fun p => (["store", p.1], p.2))

/-- The process-wide state: the in-memory store and the file system. -/
abbrev State := Store × Disk

/-- The state at process start: the store scanned from the storage
directory listing, over the file system holding that directory. -/
def initState (d0 : DirListing) : State := (init_store d0, storeDir d0)

/-- The state change of a successful upload, lines 117 to 125 of the
source: fs::write the content at the resolved location of the raw name
under the storage directory, then insert the record under the raw
name. -/
def putState (st : State) (name content : String) : State :=
  (Store.insert st.1 (File.mk name (some content)),
   Disk.write st.2 (resolveUpload name) content)

/-! ## Responses and the router -/

/-- A single apostrophe character, used by the response messages. -/
def apos : String := String.mk [Char.ofNat 39]

/-- A response body: either the JSON envelope with a msg field and an
optional files field (serde omits absent content and absent files), or
the raw file content of a successful download. -/
inductive Body where
  | json (msg : String) (files : Option (List File))
  | raw (content : String)
deriving DecidableEq

/-- An HTTP response: status code and body. -/
structure Resp where
  status : Nat
  body : Body
deriving DecidableEq

/-- The response helper of the source: a JSON body holding only msg. -/
def response (code : Nat) (msg : String) : Resp := Resp.mk code (Body.json msg none)

instance {ε α : Type} [DecidableEq ε] [DecidableEq α] : DecidableEq (Except ε α) := fun a b =>
  match a, b with
  | Except.error x, Except.error y =>
    if h : x = y then isTrue (by rw [h]) else isFalse (fun hc => by cases hc; exact h rfl)
  | Except.error _, Except.ok _ => isFalse (fun hc => by cases hc)
  | Except.ok _, Except.error _ => isFalse (fun hc => by cases hc)
  | Except.ok x, Except.ok y =>
    if h : x = y then isTrue (by rw [h]) else isFalse (fun hc => by cases hc; exact h rfl)

/-- The request methods the router distinguishes. -/
inductive HttpMethod where
  | GET
  | POST
  | other
deriving DecidableEq

/-- upload (source lines 96 to 131), after form parsing: reject when the
name or content field is missing; otherwise fs::write the content under
the raw name (the boolean tells whether the write succeeds) and insert
the record only after a successful write; a failed write propagates the
error and changes nothing. -/
def upload (st : State) (name? content? : Option String) (wok : Bool) :
    State × Except Unit Resp :=
  match name?, content? with
  | some name, some content =>
    if wok then
      (putState st name content,
       Except.ok (response 201 ("Stored file " ++ apos ++ name ++ apos)))
    else (st, Except.error ())
  | _, _ => (st, Except.ok (response 400 "Missing name or content in request body"))

/-- download (source lines 133 to 160): the literal name file is the
no-file-path edge case; otherwise look up the sanitized name in the
store and serve its content (empty when the record has none) as the raw
body, or report it not found. -/
def download (s : Store) (file_name : String) : Resp :=
  if file_name = "file" then response 400 "No file path given"
  else
    match Store.get? s (sanitizeName file_name) with
    | some f => Resp.mk 200 (Body.raw (f.content.getD ""))
    | none =>
      response 404 ("File " ++ apos ++ sanitizeName file_name ++ apos ++ " not found in store")

/-- listAll, the body of all (source lines 162 to 170): every record
with its content stripped. -/
def listAll (s : Store) : List File := s.map (fun f => File.mk f.name none)

/-- all (source lines 162 to 182): 200 with the count message and the
name-only records. -/
def all (s : Store) : Resp :=
  let files := listAll s
  Resp.mk 200 (Body.json
    (if files.length = 0 then "Got no files"
     else "Got " ++ toString files.length ++ " files")
    (some files))

/-- The dispatch of response_handler (source lines 83 to 93) on the
segment list: index segment 0 (a panic, modelled as none, when there is
none) and match on method and first segment; the download route answers
404 No file path when segment 1 is absent. -/
def route (method : HttpMethod) (segs : List String)
    (name? content? : Option String) (wok : Bool) (st : State) :
    Option (State × Except Unit Resp) :=
  match segs.head? with
  | none => none
  | some s0 =>
    match method, s0 with
    | .GET, "files" => some (st, Except.ok (all st.1))
    | .POST, "file" => some (upload st name? content? wok)
    | .GET, "file" =>
      match segs.get? 1 with
      | none => some (st, Except.ok (response 404 "No file path"))
      | some n => some (st, Except.ok (download st.1 n))
    | _, _ => some (st, Except.ok (response 404 "Not Found"))

/-- response_handler (source lines 72 to 94): split the path into
non-empty segments (lines 76 to 81), then dispatch (lines 83 to 93). -/
def response_handler (method : HttpMethod) (path : String)
    (name? content? : Option String) (wok : Bool) (st : State) :
    Option (State × Except Unit Resp) :=
  route method (pathSegs path) name? content? wok st

/-! ## Request sequences -/

/-- One client-visible store operation: an upload attempt (with its disk
write outcome), a download, or a listing. -/
inductive Op where
  | put (name content : String) (wok : Bool)
  | get (name : String)
  | list
deriving DecidableEq

/-- The state after one operation: only a successful upload changes the
state (download and all only read the store). -/
def step (st : State) : Op → State
  | .put n c wok => (upload st (some n) (some c) wok).1
  | .get _ => st
  | .list => st

/-- The state after a sequence of operations. -/
def run (st : State) (ops : List Op) : State := ops.foldl step st

/-- The content of the most recent successful put for a name in a
sequence of operations, when there is one. -/
def lastPut? (ops : List Op) (n : String) : Option String :=
  ops.foldl
    (fun acc op =>
      match op with
      | .put m c true => if m = n then some c else acc
      | _ => acc) none

/-! ## Store and disk lemmas -/

theorem Store.get?_insert (s : Store) (f : File) (n : String) :
    Store.get? (Store.insert s f) n = if f.name = n then some f else Store.get? s n := by
  induction s with
  | nil => simp [Store.insert, Store.get?]
  | cons g gs ih =>
    by_cases hg : g.name = f.name
    · simp only [Store.insert, if_pos hg, Store.get?]
      by_cases hn : f.name = n
      · simp [hn]
      · have hgn : ¬ g.name = n := fun h => hn (hg.symm.trans h)
        simp [hn, hgn, Store.get?]
    · simp only [Store.insert, if_neg hg, Store.get?]
      by_cases hgn : g.name = n
      · have hfn : ¬ f.name = n := fun h => hg (hgn.trans h.symm)
        simp [hgn, hfn]
      · simp [hgn, ih]

/-- The names of the store records are pairwise distinct (true of every
reachable store, since the map is keyed by name). -/
def namesNodup (s : Store) : Prop := (s.map File.name).Nodup

theorem Store.mem_insert_weak {s : Store} {f g : File} (h : g ∈ Store.insert s f) :
    g = f ∨ g ∈ s := by
  induction s with
  | nil => simp [Store.insert] at h; exact Or.inl h
  | cons k ks ih =>
    by_cases hkf : k.name = f.name
    · simp only [Store.insert, if_pos hkf] at h
      rcases List.mem_cons.mp h with h | h
      · exact Or.inl h
      · exact Or.inr (List.mem_cons_of_mem _ h)
    · simp only [Store.insert, if_neg hkf] at h
      rcases List.mem_cons.mp h with h | h
      · subst h
        exact Or.inr (List.mem_cons_self _ _)
      · rcases ih h with h1 | h1
        · exact Or.inl h1
        · exact Or.inr (List.mem_cons_of_mem _ h1)

theorem Store.mem_insert_strong {s : Store} {f g : File} (hn : namesNodup s)
    (h : g ∈ Store.insert s f) : g = f ∨ (g ∈ s ∧ g.name ≠ f.name) := by
  induction s with
  | nil => simp [Store.insert] at h; exact Or.inl h
  | cons k ks ih =>
    obtain ⟨hk, hks⟩ := List.nodup_cons.mp
      (show (k.name :: ks.map File.name).Nodup by
        simpa only [namesNodup, List.map_cons] using hn)
    by_cases hkf : k.name = f.name
    · simp only [Store.insert, if_pos hkf] at h
      rcases List.mem_cons.mp h with h | h
      · exact Or.inl h
      · refine Or.inr ⟨List.mem_cons_of_mem _ h, fun hgf => ?_⟩
        have hmem : g.name ∈ ks.map File.name := List.mem_map_of_mem File.name h
        rw [hgf, ← hkf] at hmem
        exact hk hmem
    · simp only [Store.insert, if_neg hkf] at h
      rcases List.mem_cons.mp h with h | h
      · subst h
        exact Or.inr ⟨List.mem_cons_self _ _, hkf⟩
      · rcases ih hks h with h1 | ⟨hmem, hne⟩
        · exact Or.inl h1
        · exact Or.inr ⟨List.mem_cons_of_mem _ hmem, hne⟩

theorem Store.names_insert (s : Store) (f : File) :
    (Store.insert s f).map File.name = s.map File.name ∨
    (Store.insert s f).map File.name = s.map File.name ++ [f.name] := by
  induction s with
  | nil => simp [Store.insert]
  | cons k ks ih =>
    by_cases hkf : k.name = f.name
    · simp [Store.insert, hkf]
    · rcases ih with h | h
      · exact Or.inl (by simp [Store.insert, hkf, h])
      · exact Or.inr (by simp [Store.insert, hkf, h])

theorem namesNodup_insert {s : Store} (f : File) (hn : namesNodup s) :
    namesNodup (Store.insert s f) := by
  induction s with
  | nil => simp [Store.insert, namesNodup]
  | cons k ks ih =>
    obtain ⟨hk, hks⟩ := List.nodup_cons.mp
      (show (k.name :: ks.map File.name).Nodup by
        simpa only [namesNodup, List.map_cons] using hn)
    by_cases hkf : k.name = f.name
    · have hgoal : namesNodup (f :: ks) := by
        simp only [namesNodup, List.map_cons]
        exact List.nodup_cons.mpr ⟨hkf ▸ hk, hks⟩
      simpa [Store.insert, hkf] using hgoal
    · have hrec : namesNodup (Store.insert ks f) := ih hks
      have hnotin : k.name ∉ (Store.insert ks f).map File.name := by
        rcases Store.names_insert ks f with h | h
        · rw [h]; exact hk
        · rw [h]
          intro hmem
          rcases List.mem_append.mp hmem with h1 | h1
          · exact hk h1
          · exact hkf (by simpa using h1)
      have hgoal : namesNodup (k :: Store.insert ks f) := by
        simp only [namesNodup, List.map_cons]
        exact List.nodup_cons.mpr ⟨hnotin, hrec⟩
      simpa [Store.insert, hkf] using hgoal

theorem Store.insert_idem (s : Store) (f : File) :
    Store.insert (Store.insert s f) f = Store.insert s f := by
  induction s with
  | nil => simp [Store.insert]
  | cons k ks ih =>
    by_cases hkf : k.name = f.name
    · simp [Store.insert, hkf]
    · simp [Store.insert, hkf, ih]

theorem Disk.lookup_write (d : Disk) (n : List String) (c : String) (m : List String) :
    Disk.lookup (Disk.write d n c) m =
      if n = m then some (Data.text c) else Disk.lookup d m := by
  induction d with
  | nil => simp [Disk.write, Disk.lookup]
  | cons p ds ih =>
    obtain ⟨k, dat⟩ := p
    by_cases hk : k = n
    · simp only [Disk.write, if_pos hk, Disk.lookup]
      by_cases hm : n = m
      · simp [hm]
      · have hkm : ¬ k = m := fun h => hm (hk.symm.trans h)
        simp [hm, hkm, Disk.lookup]
    · simp only [Disk.write, if_neg hk, Disk.lookup]
      by_cases hm : k = m
      · have hnm : ¬ n = m := fun h => hk (hm.trans h.symm)
        simp [hm, hnm]
      · simp [hm, ih]

theorem Disk.lookup_of_mem_nodup {d : Disk} {n : List String} {dat : Data}
    (hd : (d.map Prod.fst).Nodup) (h : (n, dat) ∈ d) :
    Disk.lookup d n = some dat := by
  induction d with
  | nil => cases h
  | cons p ds ih =>
    obtain ⟨k, kd⟩ := p
    obtain ⟨hk, hds⟩ := List.nodup_cons.mp
      (show (k :: ds.map Prod.fst).Nodup by simpa only [List.map_cons] using hd)
    rcases List.mem_cons.mp h with h | h
    · cases h
      simp [Disk.lookup]
    · have hne : ¬ k = n := by
        intro hkn
        subst hkn
        exact hk (List.mem_map_of_mem Prod.fst h)
      simp [Disk.lookup, hne, ih hds h]

/-! ## Path lemmas -/

theorem toList_append (a b : String) : (a ++ b).toList = a.toList ++ b.toList :=
  String.data_append a b

theorem mk_toList (s : String) : String.mk s.toList = s := rfl

theorem toList_ne_nil {s : String} (h : s ≠ "") : s.toList ≠ [] := by
  intro hh
  apply h
  cases s with
  | mk data => cases hh; rfl

theorem splitSlash_no_slash {l : List Char} (h : '/' ∉ l) : splitSlash l = [l] := by
  induction l with
  | nil => rfl
  | cons c cs ih =>
    have hc : ¬ c = '/' := fun hh => h (by rw [← hh] at *; exact List.mem_cons_self c cs)
    have hcs : '/' ∉ cs := fun hh => h (List.mem_cons_of_mem _ hh)
    simp [splitSlash, hc, ih hcs]

theorem splitSlash_cons_ne {c : Char} {cs s : List Char} {rest : List (List Char)}
    (hc : ¬ c = '/') (h : splitSlash cs = s :: rest) :
    splitSlash (c :: cs) = (c :: s) :: rest := by
  simp [splitSlash, hc, h]

theorem splitSlash_file_concat {nl : List Char} (h1 : '/' ∉ nl) :
    splitSlash ('/' :: 'f' :: 'i' :: 'l' :: 'e' :: '/' :: nl)
      = [[], ['f', 'i', 'l', 'e'], nl] := by
  have h2 : splitSlash nl = [nl] := splitSlash_no_slash h1
  have h3 : splitSlash ('/' :: nl) = [] :: [nl] := by simp [splitSlash, h2]
  have h4 := splitSlash_cons_ne (c := 'e') (by decide) h3
  have h5 := splitSlash_cons_ne (c := 'l') (by decide) h4
  have h6 := splitSlash_cons_ne (c := 'i') (by decide) h5
  have h7 := splitSlash_cons_ne (c := 'f') (by decide) h6
  have h8 : splitSlash ('/' :: 'f' :: 'i' :: 'l' :: 'e' :: '/' :: nl)
      = [] :: splitSlash ('f' :: 'i' :: 'l' :: 'e' :: '/' :: nl) := rfl
  rw [h8, h7]

theorem pathSegs_file_concat {name : String} (h0 : name ≠ "") (h1 : '/' ∉ name.toList) :
    pathSegs ("/file/" ++ name) = ["file", name] := by
  have hl : ("/file/" ++ name).toList
      = '/' :: 'f' :: 'i' :: 'l' :: 'e' :: '/' :: name.toList := by
    rw [toList_append]
    rfl
  rw [pathSegs, hl, splitSlash_file_concat h1]
  obtain ⟨a, as, hd⟩ : ∃ a as, name.toList = a :: as := by
    cases hnl : name.toList with
    | nil => exact absurd hnl (toList_ne_nil h0)
    | cons a as => exact ⟨a, as, rfl⟩
  rw [hd]
  show ["file", String.mk (a :: as)] = ["file", name]
  rw [← hd, mk_toList]

theorem sanitizeName_no_slash {n : String} (h : '/' ∉ n.toList) : sanitizeName n = n := by
  rw [sanitizeName, fileName?, splitSlash_no_slash h]
  cases hnl : n.toList with
  | nil => rfl
  | cons a as =>
    by_cases hdot : (a :: as) = ['.']
    · rw [hdot]
      rfl
    · have hbne : ((a :: as) != ['.']) = true := bne_iff_ne.mpr hdot
      have hcond : (!(a :: as).isEmpty && ((a :: as) != ['.'])) = true := by
        simp [hbne]
      have hfit : List.filter (fun s => !s.isEmpty && s != ['.']) [a :: as] = [a :: as] := by
        simp only [List.filter]
        rw [hbne]
        rfl
      rw [hfit]
      have hgl : [a :: as].getLast? = some (a :: as) := rfl
      rw [hgl]
      by_cases hdd : (a :: as) = ['.', '.']
      · show (if (a :: as) = ['.', '.'] then none else some (String.mk (a :: as))).getD n = n
        rw [if_pos hdd]
        rfl
      · show (if (a :: as) = ['.', '.'] then none else some (String.mk (a :: as))).getD n = n
        rw [if_neg hdd]
        show String.mk (a :: as) = n
        rw [← hnl, mk_toList]

theorem head?_ne_slash {n : String} (h1 : '/' ∉ n.toList) :
    ¬ n.toList.head? = some '/' := by
  cases hnl : n.toList with
  | nil => intro hh; cases hh
  | cons a as =>
    intro hh
    have ha : a = '/' := by cases hh; rfl
    exact h1 (by rw [hnl, ha]; exact List.mem_cons_self _ _)

theorem splitSlash_dotstore_concat {nl : List Char} (h1 : '/' ∉ nl) :
    splitSlash ('.' :: '/' :: 's' :: 't' :: 'o' :: 'r' :: 'e' :: '/' :: nl)
      = [['.'], ['s', 't', 'o', 'r', 'e'], nl] := by
  have h2 : splitSlash nl = [nl] := splitSlash_no_slash h1
  have h3 : splitSlash ('/' :: nl) = [] :: [nl] := by simp [splitSlash, h2]
  have h4 := splitSlash_cons_ne (c := 'e') (by decide) h3
  have h5 := splitSlash_cons_ne (c := 'r') (by decide) h4
  have h6 := splitSlash_cons_ne (c := 'o') (by decide) h5
  have h7 := splitSlash_cons_ne (c := 't') (by decide) h6
  have h8 := splitSlash_cons_ne (c := 's') (by decide) h7
  have h9 : splitSlash ('/' :: 's' :: 't' :: 'o' :: 'r' :: 'e' :: '/' :: nl)
      = [] :: splitSlash ('s' :: 't' :: 'o' :: 'r' :: 'e' :: '/' :: nl) := rfl
  have h10 : splitSlash ('/' :: 's' :: 't' :: 'o' :: 'r' :: 'e' :: '/' :: nl)
      = [] :: [['s', 't', 'o', 'r', 'e'], nl] := by rw [h9, h8]
  exact splitSlash_cons_ne (c := '.') (by decide) h10

theorem pathSegs_uploadPath {name : String} (h0 : name ≠ "") (h1 : '/' ∉ name.toList) :
    pathSegs (uploadPath name) = [".", "store", name] := by
  have hh : ¬ name.toList.head? = some '/' := head?_ne_slash h1
  have hju : uploadPath name = pathJoin "." "store" ++ "/" ++ name := by
    show (if name.toList.head? = some '/' then name
          else pathJoin "." "store" ++ "/" ++ name)
        = pathJoin "." "store" ++ "/" ++ name
    rw [if_neg hh]
  have hl : (uploadPath name).toList
      = '.' :: '/' :: 's' :: 't' :: 'o' :: 'r' :: 'e' :: '/' :: name.toList := by
    rw [hju, toList_append]
    rfl
  rw [pathSegs, hl, splitSlash_dotstore_concat h1]
  obtain ⟨a, as, hd⟩ : ∃ a as, name.toList = a :: as := by
    cases hnl : name.toList with
    | nil => exact absurd hnl (toList_ne_nil h0)
    | cons a as => exact ⟨a, as, rfl⟩
  rw [hd]
  show [".", "store", String.mk (a :: as)] = [".", "store", name]
  rw [← hd, mk_toList]

theorem normalizeSegs_dotstore {name : String} (hd1 : name ≠ ".") (hd2 : name ≠ "..") :
    normalizeSegs [".", "store", name] = ["store", name] := by
  show (if name = "." then ["store"]
        else if name = ".." then (["store"] : List String).dropLast
        else ["store"] ++ [name]) = ["store", name]
  rw [if_neg hd1, if_neg hd2]
  rfl


/-! ## The write-through invariant -/

/-- Every store record corresponds to a file of its name existing in the
storage directory whose decoded text equals the record content (no
content exactly when the file bytes are not valid text). -/
def storeDiskInv (st : State) : Prop :=
  ∀ f ∈ st.1, ∃ dat,
    Disk.lookup st.2 ["store", f.name] = some dat ∧ Data.decode dat = f.content

/-- The consistency invariant in the stronger wording of the spec: every
store record corresponds to a file of its name in the storage directory
holding text identical to the record content. -/
def strictStoreDiskInv (st : State) : Prop :=
  ∀ f ∈ st.1, ∃ c,
    Disk.lookup st.2 ["store", f.name] = some (Data.text c) ∧ f.content = some c

def goodState (st : State) : Prop := storeDiskInv st ∧ namesNodup st.1

/-- A raw client name that is a single normal path segment: under fs
path resolution its upload target stays the file of that name inside the
storage directory. -/
def normalSeg (n : String) : Prop :=
  n ≠ "" ∧ '/' ∉ n.toList ∧ n ≠ "." ∧ n ≠ ".."

instance (n : String) : Decidable (normalSeg n) :=
  decidable_of_iff (n ≠ "" ∧ '/' ∉ n.toList ∧ n ≠ "." ∧ n ≠ "..") Iff.rfl

/-- An operation whose put name, if any, is a single normal path
segment. -/
def opNormal : Op → Prop
  | Op.put n _ _ => normalSeg n
  | Op.get _ => True
  | Op.list => True

instance : DecidablePred opNormal := fun op =>
  match op with
  | Op.put n _ _ => decidable_of_iff (normalSeg n) Iff.rfl
  | Op.get _ => decidable_of_iff True Iff.rfl
  | Op.list => decidable_of_iff True Iff.rfl

/-- Every put of the sequence uses a single normal path segment as its
name. -/
def opsNormal (ops : List Op) : Prop := ∀ op ∈ ops, opNormal op

instance (ops : List Op) : Decidable (opsNormal ops) :=
  decidable_of_iff (∀ op ∈ ops, opNormal op) Iff.rfl

theorem resolveUpload_normal {n : String} (h : normalSeg n) :
    resolveUpload n = ["store", n] := by
  obtain ⟨h0, h1, hd1, hd2⟩ := h
  rw [resolveUpload, pathSegs_uploadPath h0 h1, normalizeSegs_dotstore hd1 hd2]

theorem storeKey_inj {a b : String}
    (h : (["store", a] : List String) = ["store", b]) : a = b := by
  simp only [List.cons.injEq] at h
  exact h.2.1

theorem mem_init_store {d : DirListing} {f : File} (h : f ∈ init_store d) :
    ∃ p ∈ d, f = File.mk p.1 (Data.decode p.2) := by
  suffices H : ∀ (s0 : Store), f ∈ d.foldl
      (fun s p => Store.insert s (File.mk p.1 (Data.decode p.2))) s0 →
      f ∈ s0 ∨ ∃ p ∈ d, f = File.mk p.1 (Data.decode p.2) by
    rcases H [] h with h0 | h0
    · cases h0
    · exact h0
  clear h
  induction d with
  | nil => intro s0 h; exact Or.inl h
  | cons q qs ih =>
    intro s0 h
    simp only [List.foldl_cons] at h
    rcases ih _ h with h0 | ⟨p, hp, hf⟩
    · rcases Store.mem_insert_weak h0 with h1 | h1
      · exact Or.inr ⟨q, List.mem_cons_self q qs, h1⟩
      · exact Or.inl h1
    · exact Or.inr ⟨p, List.mem_cons_of_mem _ hp, hf⟩

theorem namesNodup_init_store (d : DirListing) : namesNodup (init_store d) := by
  suffices H : ∀ (s0 : Store), namesNodup s0 → namesNodup (d.foldl
      (fun s p => Store.insert s (File.mk p.1 (Data.decode p.2))) s0) from
    H [] (by simp [namesNodup])
  induction d with
  | nil => intro s0 h; exact h
  | cons q qs ih =>
    intro s0 h
    exact ih _ (namesNodup_insert _ h)

/-! ## Step lemmas and invariant preservation -/

theorem step_put_true (st : State) (n c : String) :
    step st (Op.put n c true) = putState st n c := rfl

theorem step_put_false (st : State) (n c : String) :
    step st (Op.put n c false) = st := rfl

theorem step_get (st : State) (n : String) : step st (Op.get n) = st := rfl

theorem step_list (st : State) : step st Op.list = st := rfl

theorem lookup_storeDir {d0 : DirListing} {n : String} {dat : Data}
    (hd : (d0.map Prod.fst).Nodup) (h : (n, dat) ∈ d0) :
    Disk.lookup (storeDir d0) ["store", n] = some dat := by
  have hmem : ((["store", n] : List String), dat) ∈ storeDir d0 :=
    List.mem_map.mpr ⟨(n, dat), h, rfl⟩
  have hmapmap : (storeDir d0).map Prod.fst
      = (d0.map Prod.fst).map (fun s => ["store", s]) := by
    simp [storeDir, List.map_map]
  have hnd : ((storeDir d0).map Prod.fst).Nodup := by
    rw [hmapmap]
    exact hd.map (fun a b hab => storeKey_inj hab)
  exact Disk.lookup_of_mem_nodup hnd hmem

theorem goodState_initState {d0 : DirListing} (hd : (d0.map Prod.fst).Nodup) :
    goodState (initState d0) := by
  constructor
  · intro f hf
    rcases mem_init_store hf with ⟨p, hp, rfl⟩
    exact ⟨p.2, lookup_storeDir hd (by simpa using hp), rfl⟩
  · exact namesNodup_init_store d0

theorem goodState_step {st : State} (h : goodState st) {op : Op} (hop : opNormal op) :
    goodState (step st op) := by
  obtain ⟨hinv, hnd⟩ := h
  cases op with
  | put n c wok =>
    have hn : normalSeg n := hop
    cases wok with
    | false => exact ⟨hinv, hnd⟩
    | true =>
      rw [step_put_true]
      constructor
      · intro f hf
        rcases Store.mem_insert_strong hnd hf with rfl | ⟨hmem, hne⟩
        · refine ⟨Data.text c, ?_, rfl⟩
          show Disk.lookup (Disk.write st.2 (resolveUpload n) c) ["store", n]
              = some (Data.text c)
          rw [resolveUpload_normal hn, Disk.lookup_write, if_pos rfl]
        · rcases hinv f hmem with ⟨dat, hl, hdec⟩
          refine ⟨dat, ?_, hdec⟩
          show Disk.lookup (Disk.write st.2 (resolveUpload n) c) ["store", f.name]
              = some dat
          rw [resolveUpload_normal hn, Disk.lookup_write,
            if_neg (fun hh => hne (storeKey_inj hh).symm), hl]
      · exact namesNodup_insert _ hnd
  | get _ => exact ⟨hinv, hnd⟩
  | list => exact ⟨hinv, hnd⟩

theorem goodState_run {st : State} (h : goodState st) {ops : List Op}
    (hops : opsNormal ops) : goodState (run st ops) := by
  induction ops generalizing st with
  | nil => exact h
  | cons op ops ih =>
    show goodState (run (step st op) ops)
    exact ih (goodState_step h (hops op (List.mem_cons_self _ _)))
      (fun o ho => hops o (List.mem_cons_of_mem _ ho))

theorem run_append (st : State) (ops : List Op) (op : Op) :
    run st (ops ++ [op]) = step (run st ops) op := by
  simp [run, List.foldl_append]

theorem lastPut?_append (ops : List Op) (op : Op) (n : String) :
    lastPut? (ops ++ [op]) n =
      match op with
      | .put m c true => if m = n then some c else lastPut? ops n
      | _ => lastPut? ops n := by
  simp [lastPut?, List.foldl_append]

theorem get?_run_of_lastPut {ops : List Op} {n c : String} (st : State)
    (h : lastPut? ops n = some c) :
    Store.get? (run st ops).1 n = some (File.mk n (some c)) := by
  induction ops using List.reverseRecOn generalizing c with
  | nil => simp [lastPut?] at h
  | append_singleton ops op ih =>
    rw [run_append]
    rw [lastPut?_append] at h
    cases op with
    | put m cc wok =>
      cases wok with
      | false =>
        rw [step_put_false]
        exact ih h
      | true =>
        simp only at h
        by_cases hm : m = n
        · rw [if_pos hm] at h
          have hco : cc = c := Option.some.inj h
          rw [step_put_true]
          show Store.get? (Store.insert (run st ops).1 (File.mk m (some cc))) n
              = some (File.mk n (some c))
          rw [Store.get?_insert, if_pos (show (File.mk m (some cc)).name = n from hm)]
          rw [hm, hco]
        · rw [if_neg hm] at h
          rw [step_put_true]
          show Store.get? (Store.insert (run st ops).1 (File.mk m (some cc))) n = _
          rw [Store.get?_insert, if_neg hm]
          exact ih h
    | get _ =>
      rw [step_get]
      exact ih h
    | list =>
      rw [step_list]
      exact ih h

/-! ## Router reduction lemmas -/

theorem route_get_file_seg (st : State) (name? content? : Option String) (wok : Bool)
    (n : String) :
    route .GET ["file", n] name? content? wok st
      = some (st, Except.ok (download st.1 n)) := rfl

theorem download_found {s : Store} {n : String} (h2 : n ≠ "file") (h1 : '/' ∉ n.toList)
    {f : File} (hg : Store.get? s n = some f) :
    download s n = Resp.mk 200 (Body.raw (f.content.getD "")) := by
  rw [download, if_neg h2, sanitizeName_no_slash h1, hg]

/-! ## Claim theorems -/

/-- Claim C1, strict reading refuted: after initialize on a disk holding
one file whose bytes are not valid text, the store has an entry whose
content (absent) is not identical to the content of the disk file, so
the invariant that every entry corresponds to a disk file with identical
content fails on a reachable state. -/
theorem C1_strict_invariant_refuted :
    ¬ strictStoreDiskInv (run (initState [("blob", Data.binary [255])]) []) := by
  intro hinv
  have hmem : File.mk "blob" none ∈ (run (initState [("blob", Data.binary [255])]) []).1 := by
    decide
  obtain ⟨c, _, hc⟩ := hinv _ hmem
  exact Option.noConfusion hc

/-- The unrestricted form of the write-through invariant is false of the
program: the raw names dot dot slash store slash a and a resolve to one
physical file ./store/a, so after putting under both, the entry stored
under the first raw name carries stale content and no file of that name
exists in the storage directory. This forces the name restriction of the
amended claim C1. -/
theorem storeDiskInv_fails_on_traversal :
    ¬ storeDiskInv (run (initState [])
      [Op.put "../store/a" "c1" true, Op.put "a" "c2" true]) := by
  intro h
  have hmem : File.mk "../store/a" (some "c1")
      ∈ (run (initState [])
          [Op.put "../store/a" "c1" true, Op.put "a" "c2" true]).1 := by
    decide
  obtain ⟨dat, hl, _⟩ := h _ hmem
  have hnone : Disk.lookup
      (run (initState []) [Op.put "../store/a" "c1" true, Op.put "a" "c2" true]).2
      ["store", "../store/a"] = none := by
    decide
  rw [hnone] at hl
  exact Option.noConfusion hl

example : (run (initState []) [Op.put "../store/a" "c1" true, Op.put "a" "c2" true]).2
    = [(["store", "a"], Data.text "c2")] := by decide

/-- Claim C1 (amended): at every state reachable from initialize on a
storage directory with distinct filenames by any sequence of put, get
and listAll in which every put name is a single normal path segment
(non-empty, no slash, not dot or dot dot — names whose upload target
resolves inside the storage directory), every store entry corresponds to
a file of its name existing in the storage directory whose decoded text
equals the entry content (an entry scanned from a non-text file carries
no content); each put writes the file to disk and updates the mapping
only after the write succeeds. -/
theorem C1_store_disk_consistency (d0 : DirListing) (ops : List Op)
    (hd : (d0.map Prod.fst).Nodup) (hops : opsNormal ops) :
    storeDiskInv (run (initState d0) ops) :=
  (goodState_run (goodState_initState hd) hops).1

/-- Witness for C1 on a concrete directory listing and operation
sequence. -/
theorem C1_store_disk_consistency_witness :
    storeDiskInv (run (initState [("a.txt", Data.text "hello"), ("blob", Data.binary [255])])
      [Op.put "a.txt" "bye" true, Op.put "x" "y" false, Op.get "a.txt", Op.list]) :=
  C1_store_disk_consistency _ _ (by decide) (by decide)

/-- Claim C2: when the disk write of a put fails, the error is
propagated to the caller and the in-memory mapping is unchanged, in
particular the previously stored entry for the name is untouched. -/
theorem C2_put_failure_atomic (s : Store) (d : Disk) (n c : String) :
    upload (s, d) (some n) (some c) false = ((s, d), Except.error ())
    ∧ Store.get? ((upload (s, d) (some n) (some c) false).1).1 n = Store.get? s n :=
  ⟨rfl, rfl⟩

/-- Claim C3: after any sequence of operations on any starting state, a
get for a name returns the content of the most recent successful put for
that name. -/
theorem C3_last_write_wins (st : State) (ops : List Op) (n c : String)
    (h : lastPut? ops n = some c) :
    Store.get? (run st ops).1 n = some (File.mk n (some c)) :=
  get?_run_of_lastPut st h

/-- Witness for C3 on a concrete sequence of three puts. -/
theorem C3_last_write_wins_witness :
    Store.get? (run (([], []) : State)
      [Op.put "a" "x" true, Op.put "b" "z" true, Op.put "a" "y" true]).1 "a"
      = some (File.mk "a" (some "y")) :=
  C3_last_write_wins ([], []) _ "a" "y" (by decide)

/-- Claim C4 refuted as stated: uploading the name file succeeds with
201, but downloading it hits the no-file-path edge case of download and
answers 400, not 200 with the content. -/
theorem C4_round_trip_refuted :
    response_handler .POST "/file" (some "file") (some "world") true ([], [])
      = some ((([File.mk "file" (some "world")], [(["store", "file"], Data.text "world")]),
          Except.ok (response 201 ("Stored file " ++ apos ++ "file" ++ apos))))
    ∧ response_handler .GET "/file/file" none none true
        (([File.mk "file" (some "world")], [(["store", "file"], Data.text "world")]))
      = some ((([File.mk "file" (some "world")], [(["store", "file"], Data.text "world")]),
          Except.ok (response 400 "No file path given")))
    ∧ response 400 "No file path given" ≠ Resp.mk 200 (Body.raw "world") := by
  refine ⟨rfl, rfl, ?_⟩
  decide

/-- Claim C4 (amended): for every name that is a non-empty single path
segment other than the literal name file, and whose disk write succeeds,
uploading name with some content answers 201 and a following download of
name answers 200 with exactly that content as the raw body. -/
theorem C4_round_trip (st : State) (name content : String)
    (h0 : name ≠ "") (h1 : '/' ∉ name.toList) (h2 : name ≠ "file") :
    response_handler .POST "/file" (some name) (some content) true st
      = some (putState st name content,
          Except.ok (response 201 ("Stored file " ++ apos ++ name ++ apos)))
    ∧ response_handler .GET ("/file/" ++ name) none none true (putState st name content)
      = some (putState st name content, Except.ok (Resp.mk 200 (Body.raw content))) := by
  constructor
  · rfl
  · show route .GET (pathSegs ("/file/" ++ name)) none none true (putState st name content)
        = _
    rw [pathSegs_file_concat h0 h1, route_get_file_seg]
    have hget : Store.get? (putState st name content).1 name
        = some (File.mk name (some content)) := by
      show Store.get? (Store.insert st.1 (File.mk name (some content))) name = _
      rw [Store.get?_insert, if_pos rfl]
    rw [download_found h2 h1 hget]
    rfl

/-- Witness for C4 at the scenario of the spec: hello.txt and world. -/
theorem C4_round_trip_witness :
    response_handler .POST "/file" (some "hello.txt") (some "world") true (([], []) : State)
      = some (putState ([], []) "hello.txt" "world",
          Except.ok (response 201 ("Stored file " ++ apos ++ "hello.txt" ++ apos)))
    ∧ response_handler .GET "/file/hello.txt" none none true
        (putState ([], []) "hello.txt" "world")
      = some (putState ([], []) "hello.txt" "world",
          Except.ok (Resp.mk 200 (Body.raw "world"))) :=
  C4_round_trip ([], []) "hello.txt" "world" (by decide) (by decide) (by decide)

/-- Claim C5: performing a put of the same name and content twice in a
row leaves the listAll count and the get result for that name the same
as after one put. -/
theorem C5_reupload_idempotent (st : State) (n c : String) :
    (listAll ((upload ((upload st (some n) (some c) true).1)
        (some n) (some c) true).1).1).length
      = (listAll ((upload st (some n) (some c) true).1).1).length
    ∧ Store.get? ((upload ((upload st (some n) (some c) true).1)
        (some n) (some c) true).1).1 n
      = Store.get? ((upload st (some n) (some c) true).1).1 n := by
  have hstore : ((upload ((upload st (some n) (some c) true).1)
      (some n) (some c) true).1).1 = ((upload st (some n) (some c) true).1).1 := by
    show Store.insert (Store.insert st.1 (File.mk n (some c))) (File.mk n (some c))
        = Store.insert st.1 (File.mk n (some c))
    exact Store.insert_idem _ _
  exact ⟨by rw [hstore], by rw [hstore]⟩

/-- Claim C6 refuted as stated: a download request for the path with
name segments dot dot, dot dot, etc, passwd reaches download with the
single segment dot dot (the URI path is split on slashes), so the lookup
is on dot dot and misses a stored passwd record, answering 404 instead
of serving it. -/
theorem C6_traversal_lookup_refuted :
    response_handler .GET "/file/../../etc/passwd" none none true
        (([File.mk "passwd" (some "secret")], []) : State)
      = some ((([File.mk "passwd" (some "secret")], []) : State),
          Except.ok (response 404
            ("File " ++ apos ++ ".." ++ apos ++ " not found in store")))
    ∧ response 404 ("File " ++ apos ++ ".." ++ apos ++ " not found in store")
        ≠ Resp.mk 200 (Body.raw "secret") := by
  refine ⟨rfl, ?_⟩
  decide

/-- Claim C6 (amended): the name reaching download is a single path
segment (the router splits the URI on slashes), the sanitization step is
the identity on every slash-free segment, and the request for the
traversal path resolves to a lookup of the segment dot dot; downloads
never touch the disk, so no lookup escapes the storage directory. -/
theorem C6_traversal_lookup (st : State) (n : String) (h1 : '/' ∉ n.toList) :
    response_handler .GET "/file/../../etc/passwd" none none true st
      = some (st, Except.ok (download st.1 ".."))
    ∧ sanitizeName n = n :=
  ⟨rfl, sanitizeName_no_slash h1⟩

/-- Witness for C6 at the segment dot dot and a concrete state. -/
theorem C6_traversal_lookup_witness :
    response_handler .GET "/file/../../etc/passwd" none none true
        (([File.mk "passwd" (some "secret")], []) : State)
      = some ((([File.mk "passwd" (some "secret")], []) : State),
          Except.ok (download [File.mk "passwd" (some "secret")] ".."))
    ∧ sanitizeName ".." = ".." :=
  C6_traversal_lookup ([File.mk "passwd" (some "secret")], []) ".." (by decide)

/-- Claim C7 refuted as stated: a download request for the bare path
file is answered by the router with status 404 and msg No file path, not
with status 400 and msg No file path given. -/
theorem C7_no_name_response_refuted :
    response_handler .GET "/file" none none true (([], []) : State)
      = some ((([], []) : State), Except.ok (response 404 "No file path"))
    ∧ response 404 "No file path" ≠ response 400 "No file path given" := by
  refine ⟨rfl, ?_⟩
  decide

/-- Claim C7 (amended): a GET for the bare path file, with no name
segment, is answered in the router before download and its sanitization
run, with status 404 and msg No file path (the 400 No file path given
branch of download is reached only for a request naming the literal
file file). -/
theorem C7_no_name_segment (st : State) (name? content? : Option String) (wok : Bool) :
    response_handler .GET "/file" name? content? wok st
      = some (st, Except.ok (response 404 "No file path")) := rfl

/-- Claim C8: the catch-all arm answers 404 Not Found for unmatched
requests with at least one path segment, but a request for the root path
panics (index out of bounds on the empty segment list, modelled as
none) instead of returning 404. -/
theorem C8_root_path_panics (st : State) (name? content? : Option String) (wok : Bool) :
    response_handler .GET "/" name? content? wok st = none
    ∧ response_handler .GET "/unknown" name? content? wok st
        = some (st, Except.ok (response 404 "Not Found"))
    ∧ response_handler .other "/file" name? content? wok st
        = some (st, Except.ok (response 404 "Not Found")) :=
  ⟨rfl, rfl, rfl⟩

/-- Claim C9 refuted as stated: upload joins the raw client-supplied
name under the storage directory with no sanitization, so the name dot
dot slash evil is persisted at a path that normalizes to a location
outside the storage directory, and differs from the path of its
sanitized leaf. -/
theorem C9_upload_sanitization_refuted :
    uploadPath "../evil" = "./store/../evil"
    ∧ sanitizeName "../evil" = "evil"
    ∧ uploadPath "../evil" ≠ uploadPath (sanitizeName "../evil")
    ∧ normalizeSegs (pathSegs (uploadPath "../evil")) = ["evil"]
    ∧ normalizeSegs (pathSegs (uploadPath "evil")) = ["store", "evil"] := by
  refine ⟨rfl, rfl, ?_, rfl, rfl⟩
  decide

/-- Claim C9 (amended): upload performs no sanitization and persists
under the raw name joined below the storage directory; for a name that
is a single normal path segment the write stays inside the storage
directory under the name itself, which equals its sanitized form. -/
theorem C9_upload_path_raw (name : String) (h0 : name ≠ "") (h1 : '/' ∉ name.toList)
    (hd1 : name ≠ ".") (hd2 : name ≠ "..") :
    normalizeSegs (pathSegs (uploadPath name)) = ["store", name]
    ∧ sanitizeName name = name := by
  constructor
  · rw [pathSegs_uploadPath h0 h1, normalizeSegs_dotstore hd1 hd2]
  · exact sanitizeName_no_slash h1

/-- Witness for C9 at the name hello.txt. -/
theorem C9_upload_path_raw_witness :
    normalizeSegs (pathSegs (uploadPath "hello.txt")) = ["store", "hello.txt"]
    ∧ sanitizeName "hello.txt" = "hello.txt" :=
  C9_upload_path_raw "hello.txt" (by decide) (by decide) (by decide) (by decide)

/-- Claim C10 refuted as stated: a content-less record named file (a
name the startup scan can produce) is not served with 200 and an empty
body; the request for it hits the no-file-path edge case and answers
400. -/
theorem C10_contentless_download_refuted :
    Store.get? ([File.mk "file" none] : Store) "file" = some (File.mk "file" none)
    ∧ response_handler .GET "/file/file" none none true
        (([File.mk "file" none], []) : State)
      = some ((([File.mk "file" none], []) : State),
          Except.ok (response 400 "No file path given"))
    ∧ response 400 "No file path given" ≠ Resp.mk 200 (Body.raw "") := by
  refine ⟨rfl, rfl, ?_⟩
  decide

/-- Claim C10 (amended): for every name in the mapping whose record
carries no content and which is not the literal name file, a download of
that name answers 200 with an empty raw body. -/
theorem C10_contentless_download (st : State) (n : String)
    (h0 : n ≠ "") (h1 : '/' ∉ n.toList) (h2 : n ≠ "file")
    (hg : Store.get? st.1 n = some (File.mk n none)) :
    response_handler .GET ("/file/" ++ n) none none true st
      = some (st, Except.ok (Resp.mk 200 (Body.raw ""))) := by
  show route .GET (pathSegs ("/file/" ++ n)) none none true st = _
  rw [pathSegs_file_concat h0 h1, route_get_file_seg]
  rw [download_found h2 h1 hg]
  rfl

/-- Witness for C10 on a store scanned from a disk holding one non-text
file named blob. -/
theorem C10_contentless_download_witness :
    response_handler .GET "/file/blob" none none true
        (initState [("blob", Data.binary [0])])
      = some (initState [("blob", Data.binary [0])],
          Except.ok (Resp.mk 200 (Body.raw ""))) :=
  C10_contentless_download _ "blob" (by decide) (by decide) (by decide) (by decide)

end Cdn
